import Mathlib

/-!
Verification of the Constellation metakit SDK signing core (Rust sources:
`hash.rs`, `binary.rs`, `codec.rs`, `verify.rs`, `signed_object.rs`,
`wallet.rs`).  Byte strings are modelled as `List Nat` (each element one
byte), text as `List Char` where the source manipulates strings.
External library functions (SHA-256, SHA-512, secp256k1, serde
canonicalization/parsing, per-proof signature checking) are taken as
parameters of the embedded functions; everything the repository itself
computes is embedded concretely.
-/

namespace Metakit

/-- Value of a little-endian digit list in base `b`. -/
def ofBaseLE (b : Nat) (ds : List Nat) : Nat :=
  ds.foldr (fun d acc => d + b * acc) 0

/-- Fuel-driven little-endian digit expansion of `n` in base `b`. -/
def toBaseLEAux (b : Nat) : Nat → Nat → List Nat
  | 0, _ => []
  | _ + 1, 0 => []
  | fuel + 1, n + 1 => ((n + 1) % b) :: toBaseLEAux b fuel ((n + 1) / b)

/-- Little-endian base-`b` digits of `n` (empty for `n = 0`). -/
def toBaseLE (b n : Nat) : List Nat := toBaseLEAux b (n + 1) n

/-- A little-endian digit list is canonical when its most significant
digit (the last entry) is non-zero. -/
def CanonLE (ds : List Nat) : Prop := ds.getLast? ≠ some 0

/-- Big-endian byte-sequence value: `data.foldl (fun a byte => 256 * a + byte) 0`. -/
def ofBase256BE (data : List Nat) : Nat := data.foldl (fun a byte => 256 * a + byte) 0

/-- The `BASE58_ALPHABET` constant of `wallet.rs`. -/
def BASE58_ALPHABET : List Char :=
  ['1', '2', '3', '4', '5', '6', '7', '8', '9',
   'A', 'B', 'C', 'D', 'E', 'F', 'G', 'H', 'J', 'K', 'L', 'M', 'N',
   'P', 'Q', 'R', 'S', 'T', 'U', 'V', 'W', 'X', 'Y', 'Z',
   'a', 'b', 'c', 'd', 'e', 'f', 'g', 'h', 'i', 'j', 'k', 'm', 'n',
   'o', 'p', 'q', 'r', 's', 't', 'u', 'v', 'w', 'x', 'y', 'z']

/-- One byte-absorption step of the big-integer loop in `base58_encode`
(`wallet.rs`): the `for digit in num.iter_mut()` pass with `carry += digit << 8`
followed by the `while carry > 0` push loop (the base case). `num` is the
little-endian base-58 digit accumulator. -/
def b58Carry : Nat → List Nat → List Nat
  | carry, [] => toBaseLE 58 carry
  | carry, d :: ds => ((carry + d * 256) % 58) :: b58Carry ((carry + d * 256) / 58) ds

/-- Embedding of `base58_encode` (`wallet.rs`): early-return on empty input,
count leading zero bytes, absorb each byte into the little-endian base-58
accumulator, then emit `'1'` per leading zero followed by the digits in
big-endian order through `BASE58_ALPHABET`. -/
def base58_encode (data : List Nat) : List Char :=
  if data = [] then []
  else
    let leadingZeros := (data.takeWhile (fun byte => byte == 0)).length
    let num := data.foldl (fun n byte => b58Carry byte n) []
    List.replicate leadingZeros '1' ++ num.reverse.map (fun d => BASE58_ALPHABET.getD d ' ')

/-- Base-58 rendering as the specification words it: standard big-integer
base conversion of the byte string's value, one leading `'1'` per leading
zero byte, standard 58-character alphabet. -/
def base58Spec (data : List Nat) : List Char :=
  List.replicate (data.takeWhile (fun byte => byte == 0)).length '1' ++
    (toBaseLE 58 (ofBase256BE data)).reverse.map (fun d => BASE58_ALPHABET.getD d ' ')

/-- Value of one hex digit character, as accepted by the `hex` crate
(model of the external `hex::decode` digit table). -/
def hexDigitVal (c : Char) : Option Nat :=
  if '0' ≤ c ∧ c ≤ '9' then some (c.toNat - 48)
  else if 'a' ≤ c ∧ c ≤ 'f' then some (c.toNat - 87)
  else if 'A' ≤ c ∧ c ≤ 'F' then some (c.toNat - 55)
  else none

/-- Model of the external `hex::decode`: two hex digits per byte, failing on
odd length or a non-hex character. -/
def hexDecodeChars : List Char → Option (List Nat)
  | [] => some []
  | [_] => none
  | c1 :: c2 :: rest =>
    match hexDigitVal c1, hexDigitVal c2, hexDecodeChars rest with
    | some h, some l, some bs => some ((16 * h + l) :: bs)
    | _, _, _ => none

/-- Embedding of `normalize_public_key` (`wallet.rs`): re-add the `04`
uncompressed marker when the key is 128 hex characters. -/
def normalize_public_key (pk : List Char) : List Char :=
  if pk.length = 128 then '0' :: '4' :: pk else pk

/-- Embedding of `normalize_public_key_to_id` (`wallet.rs`): strip the `04`
marker from a 130-character key. -/
def normalize_public_key_to_id (pk : List Char) : List Char :=
  if pk.length = 130 ∧ pk.take 2 = ['0', '4'] then pk.drop 2 else pk

/-- Embedding of `get_address` (`wallet.rs`): normalize the key, hex-decode it
(falling back to the empty byte string on failure, per `unwrap_or_default`),
SHA-256 hash, base58-encode, and prepend the literal `DAG` tag. The SHA-256
function of the external `sha2` crate is a parameter. -/
def get_address (sha256 : List Nat → List Nat) (pk : List Char) : List Char :=
  let normalized := normalize_public_key pk
  let bytes := (hexDecodeChars normalized).getD []
  'D' :: 'A' :: 'G' :: base58_encode (sha256 bytes)

/-- ASCII byte of one hex digit value, lowercase. -/
def hexDigitByte (d : Nat) : Nat := if d < 10 then 48 + d else 87 + d

/-- Model of the external `hex::encode`: lowercase hex text of a byte string,
as ASCII bytes. -/
def hexEncodeBytes (data : List Nat) : List Nat :=
  data.foldr (fun b acc => hexDigitByte (b / 16) :: hexDigitByte (b % 16) :: acc) []

/-- The standard base64 alphabet as ASCII byte values (model of the external
`base64` crate's STANDARD engine alphabet). -/
def B64_BYTES : List Nat :=
  (List.range 26).map (· + 65) ++ (List.range 26).map (· + 97) ++
    (List.range 10).map (· + 48) ++ [43, 47]

/-- The padding byte of base64 text. -/
def B64_PAD : Nat := 61

/-- Alphabet character for a sextet. -/
def b64CharOf (i : Nat) : Nat := B64_BYTES.getD i 0

/-- Position of a byte in a list, `none` when absent. -/
def lookupIdx : List Nat → Nat → Option Nat
  | [], _ => none
  | a :: as, b => if a = b then some 0 else (lookupIdx as b).map (· + 1)

/-- Sextet value of a base64 alphabet byte. -/
def b64Index (b : Nat) : Option Nat := lookupIdx B64_BYTES b

/-- Model of the external base64 STANDARD encoder: three bytes per four
characters, canonical `=` padding on the final partial chunk. -/
def b64EncodeBytes : List Nat → List Nat
  | [] => []
  | [a] => [b64CharOf (a / 4), b64CharOf (a % 4 * 16), B64_PAD, B64_PAD]
  | [a, b] => [b64CharOf (a / 4), b64CharOf (a % 4 * 16 + b / 16),
      b64CharOf (b % 16 * 4), B64_PAD]
  | a :: b :: c :: rest =>
    b64CharOf (a / 4) :: b64CharOf (a % 4 * 16 + b / 16) ::
      b64CharOf (b % 16 * 4 + c / 64) :: b64CharOf (c % 64) :: b64EncodeBytes rest

/-- Model of the external base64 STANDARD decoder: four characters per chunk,
canonical padding only in the last chunk, canonical (zero) trailing bits. -/
def b64DecodeBytes : List Nat → Option (List Nat)
  | [] => some []
  | [_] => none
  | [_, _] => none
  | [_, _, _] => none
  | c1 :: c2 :: c3 :: c4 :: rest =>
    match b64Index c1, b64Index c2 with
    | some i1, some i2 =>
      if c3 = B64_PAD ∧ c4 = B64_PAD ∧ rest = [] then
        if i2 % 16 = 0 then some [i1 * 4 + i2 / 16] else none
      else if c4 = B64_PAD ∧ rest = [] then
        match b64Index c3 with
        | some i3 =>
          if i3 % 4 = 0 then some [i1 * 4 + i2 / 16, i2 % 16 * 16 + i3 / 4] else none
        | none => none
      else
        match b64Index c3, b64Index c4, b64DecodeBytes rest with
        | some i3, some i4, some bs =>
          some ((i1 * 4 + i2 / 16) :: (i2 % 16 * 16 + i3 / 4) :: (i3 % 4 * 64 + i4) :: bs)
        | _, _, _ => none
    | _, _ => none

/-- Decimal ASCII rendering of a natural number (model of Rust's integer
display used by the length field). -/
def natDigitBytes (n : Nat) : List Nat :=
  if n = 0 then [48] else (toBaseLE 10 n).reverse.map (· + 48)

/-- Decimal digit value of an ASCII byte. -/
def decDigitVal (b : Nat) : Option Nat :=
  if 48 ≤ b ∧ b ≤ 57 then some (b - 48) else none

/-- Accumulating decimal parse over ASCII bytes. -/
def parseDigitsAux : List Nat → Nat → Option Nat
  | [], acc => some acc
  | b :: bs, acc =>
    match decDigitVal b with
    | some d => parseDigitsAux bs (acc * 10 + d)
    | none => none

/-- An optional leading ASCII `+` sign, as accepted by Rust's unsigned
integer `FromStr`. -/
def stripPlus : List Nat → List Nat
  | [] => []
  | x :: xs => if x = 43 then xs else x :: xs

/-- Digit-and-range phase of unsigned integer parsing: at least one byte,
digits only, value below `2^64` (an overflowing value is a parse error for
`usize` in Rust). -/
def parseNatTail (core : List Nat) : Option Nat :=
  match core with
  | [] => none
  | _ =>
    match parseDigitsAux core 0 with
    | some v => if v < 2 ^ 64 then some v else none
    | none => none

/-- Model of `str::parse::<usize>` on the length field: optional leading `+`,
then digits with the 64-bit range check. -/
def parseNatBytes (bs : List Nat) : Option Nat :=
  parseNatTail (stripPlus bs)

/-- UTF-8 continuation byte range. -/
def utf8Cont (b : Nat) : Bool := decide (128 ≤ b ∧ b < 192)

/-- Second-byte range of a three-byte sequence (overlong and surrogate
exclusions for lead bytes `0xE0` and `0xED`). -/
def utf8Snd3 (b b2 : Nat) : Bool :=
  if b = 224 then decide (160 ≤ b2 ∧ b2 < 192)
  else if b = 237 then decide (128 ≤ b2 ∧ b2 < 160)
  else utf8Cont b2

/-- Second-byte range of a four-byte sequence (overlong and `U+10FFFF`
exclusions for lead bytes `0xF0` and `0xF4`). -/
def utf8Snd4 (b b2 : Nat) : Bool :=
  if b = 240 then decide (144 ≤ b2 ∧ b2 < 192)
  else if b = 244 then decide (128 ≤ b2 ∧ b2 < 144)
  else utf8Cont b2

mutual

/-- Model of the `String::from_utf8` validity check performed by
`decode_data_update`: standard UTF-8 well-formedness of a byte string
(continuation ranges, overlong and surrogate exclusions, max `U+10FFFF`). -/
def utf8Valid : List Nat → Bool
  | [] => true
  | b :: rest =>
    if b < 128 then utf8Valid rest
    else if b < 194 then false
    else if b < 224 then utf8Tail2 b rest
    else if b < 240 then utf8Tail3 b rest
    else if b < 245 then utf8Tail4 b rest
    else false

/-- Continuation of a two-byte UTF-8 sequence. -/
def utf8Tail2 (_b : Nat) : List Nat → Bool
  | b2 :: rest2 => utf8Cont b2 && utf8Valid rest2
  | [] => false

/-- Continuation of a three-byte UTF-8 sequence. -/
def utf8Tail3 (b : Nat) : List Nat → Bool
  | b2 :: b3 :: rest3 => utf8Snd3 b b2 && utf8Cont b3 && utf8Valid rest3
  | _ => false

/-- Continuation of a four-byte UTF-8 sequence. -/
def utf8Tail4 (b : Nat) : List Nat → Bool
  | b2 :: b3 :: b4 :: rest4 =>
    utf8Snd4 b b2 && utf8Cont b3 && utf8Cont b4 && utf8Valid rest4
  | _ => false

end

/-- Model of `str::starts_with` at the byte level. -/
def startsWithBytes : List Nat → List Nat → Bool
  | [], _ => true
  | _ :: _, [] => false
  | a :: as, b :: bs => a == b && startsWithBytes as bs

/-- Model of `str::splitn(2, sep)` as used by `decode_data_update`:
`some (before, after)` around the first separator, `none` when the separator
is absent (the `parts.len() != 2` failure case). -/
def splitn2 : List Nat → Nat → Option (List Nat × List Nat)
  | [], _ => none
  | x :: xs, sep =>
    if x = sep then some ([], xs)
    else (splitn2 xs sep).map (fun p => (x :: p.1, p.2))

/-- Modelled from the spec: the error kinds of `types.rs` (not under `src/`)
that the embedded operations distinguish (spec §7). -/
inductive SdkError where
  | serializationError : SdkError
  | noPrivateKeys : SdkError
  | cryptoError : SdkError
deriving DecidableEq

/-- Modelled from the spec: the `Signed<T>` aggregate of `types.rs` (not under
`src/`): a value together with its ordered proof sequence (spec §3). The
proof type is kept abstract. -/
structure SignedObj (V P : Type) where
  value : V
  proofs : List P
deriving DecidableEq

/-- Modelled from the spec: `VerificationResult` of `types.rs` (not under
`src/`): validity flag plus ordered valid/invalid proof lists (spec §3). -/
structure VerificationResult (P : Type) where
  is_valid : Bool
  valid_proofs : List P
  invalid_proofs : List P
deriving DecidableEq

/-- Modelled from the spec: the `Hash` struct of `types.rs` (not under
`src/`): hex text plus raw bytes of a SHA-256 output (spec §3). -/
structure Hash where
  value : List Nat
  bytes : List Nat
deriving DecidableEq

/-- Modelled from the spec: the `CONSTELLATION_PREFIX` constant of `types.rs`
(not under `src/`): byte `0x19`, ASCII `Constellation Signed Data:`, newline
(spec §6 bit-exact framing; also asserted by the tests in `binary.rs`). -/
def CONSTELLATION_PREFIX_BYTES : List Nat :=
  [25, 67, 111, 110, 115, 116, 101, 108, 108, 97, 116, 105, 111, 110, 32,
   83, 105, 103, 110, 101, 100, 32, 68, 97, 116, 97, 58, 10]

/-- Embedding of `to_bytes` (`binary.rs`): canonicalize (the canonicalizer of
the missing `canonicalize.rs` is a parameter), then on the DataUpdate path
wrap with the Constellation prefix, the decimal length of the base64 text,
a newline, and the base64 text itself. -/
def to_bytes {V : Type} (canonical : V → Except SdkError (List Nat))
    (data : V) (is_data_update : Bool) : Except SdkError (List Nat) :=
  match canonical data with
  | .error e => .error e
  | .ok canonicalJson =>
    if is_data_update then
      .ok (CONSTELLATION_PREFIX_BYTES ++
        natDigitBytes (b64EncodeBytes canonicalJson).length ++
        10 :: b64EncodeBytes canonicalJson)
    else .ok canonicalJson

/-- Embedding of `encode_data_update` (`binary.rs`): `to_bytes` with the
DataUpdate flag set. -/
def encode_data_update {V : Type} (canonical : V → Except SdkError (List Nat))
    (data : V) : Except SdkError (List Nat) :=
  to_bytes canonical data true

/-- Embedding of `decode_data_update` (`codec.rs`): UTF-8 check
(`String::from_utf8`), Constellation-prefix check, byte-level slice past the
prefix, split at the first newline, parse the length field (value unused),
base64-decode the body, then parse the decoded bytes (the external
`serde_json::from_slice` parser is a parameter). -/
def decode_data_update {V : Type} (parse : List Nat → Option V)
    (data : List Nat) : Except SdkError V :=
  if utf8Valid data = false then .error .serializationError
  else if startsWithBytes CONSTELLATION_PREFIX_BYTES data = false then
    .error .serializationError
  else
    match splitn2 (data.drop CONSTELLATION_PREFIX_BYTES.length) 10 with
    | none => .error .serializationError
    | some (lenField, body) =>
      match parseNatBytes lenField with
      | none => .error .serializationError
      | some _ =>
        match b64DecodeBytes body with
        | none => .error .serializationError
        | some decoded =>
          match parse decoded with
          | none => .error .serializationError
          | some v => .ok v

/-- Embedding of `hash_bytes` (`hash.rs`): SHA-256 (external `sha2` crate, a
parameter) plus its lowercase hex text. -/
def hash_bytes (sha256 : List Nat → List Nat) (data : List Nat) : Hash :=
  ⟨hexEncodeBytes (sha256 data), sha256 data⟩

/-- Embedding of `compute_digest_from_bytes` (`hash.rs`): SHA-256, lowercase
hex text, SHA-512 of the hex text bytes, first 32 bytes. -/
def compute_digest_from_bytes (sha256 sha512 : List Nat → List Nat)
    (data : List Nat) : List Nat :=
  (sha512 (hexEncodeBytes (sha256 data))).take 32

/-- Embedding of `compute_digest_from_hash` (`hash.rs`): SHA-512 of the hash
hex text bytes, first 32 bytes. -/
def compute_digest_from_hash (sha512 : List Nat → List Nat)
    (hashHex : List Nat) : List Nat :=
  (sha512 hashHex).take 32

/-- Embedding of `compute_digest` (`hash.rs`): `to_bytes` then
`compute_digest_from_bytes`. -/
def compute_digest {V : Type} (canonical : V → Except SdkError (List Nat))
    (sha256 sha512 : List Nat → List Nat) (data : V) (is_data_update : Bool) :
    Except SdkError (List Nat) :=
  match to_bytes canonical data is_data_update with
  | .error e => .error e
  | .ok bytes => .ok (compute_digest_from_bytes sha256 sha512 bytes)

/-- Embedding of the proof loop of `verify` (`verify.rs`): each proof goes to
the valid list on `Ok(true)` and to the invalid list on `Ok(false)` or
`Err(_)`, in original order. -/
def partitionProofs {P : Type} (check : P → Except SdkError Bool) :
    List P → List P × List P
  | [] => ([], [])
  | p :: ps =>
    match check p, partitionProofs check ps with
    | .ok true, (v, i) => (p :: v, i)
    | _, (v, i) => (v, p :: i)

/-- Embedding of `verify` (`verify.rs`): recompute the canonical bytes (a
serialization error marks every proof invalid), hash them, check every proof
against the hash hex through `verify_hash` (the secp256k1-backed checker is
the parameter `vh`, taking the hash hex and the proof), and return the
partition together with the validity flag. -/
def verify {V P : Type} (canonical : V → Except SdkError (List Nat))
    (sha256 : List Nat → List Nat)
    (vh : List Nat → P → Except SdkError Bool)
    (signed : SignedObj V P) (is_data_update : Bool) : VerificationResult P :=
  match to_bytes canonical signed.value is_data_update with
  | .error _ => ⟨false, [], signed.proofs⟩
  | .ok bytes =>
    match partitionProofs (fun p => vh (hash_bytes sha256 bytes).value p)
        signed.proofs with
    | (validProofs, invalidProofs) =>
      ⟨invalidProofs.isEmpty && !validProofs.isEmpty, validProofs, invalidProofs⟩

/-- Embedding of `create_signed_object` (`signed_object.rs`); the two signing
functions of the missing `sign.rs` (`sign`, `sign_data_update`) are the
parameters `sgn` and `sgnDU`. -/
def create_signed_object {V P K : Type} (sgn sgnDU : V → K → Except SdkError P)
    (value : V) (privateKey : K) (is_data_update : Bool) :
    Except SdkError (SignedObj V P) :=
  match (if is_data_update then sgnDU value privateKey else sgn value privateKey) with
  | .error e => .error e
  | .ok proof => .ok ⟨value, [proof]⟩

/-- Embedding of `add_signature` (`signed_object.rs`): sign the existing
value with the caller's flag and push the new proof at the end. -/
def add_signature {V P K : Type} (sgn sgnDU : V → K → Except SdkError P)
    (signed : SignedObj V P) (privateKey : K) (is_data_update : Bool) :
    Except SdkError (SignedObj V P) :=
  match (if is_data_update then sgnDU signed.value privateKey
         else sgn signed.value privateKey) with
  | .error e => .error e
  | .ok newProof => .ok ⟨signed.value, signed.proofs ++ [newProof]⟩

/-- The `map(..).collect::<Result<Vec<_>>>` loop of `batch_sign`
(`signed_object.rs`): sign with each key left to right, stopping at the
first error. -/
def signAll {P K : Type} (signOne : K → Except SdkError P) :
    List K → Except SdkError (List P)
  | [] => .ok []
  | k :: ks =>
    match signOne k with
    | .error e => .error e
    | .ok p =>
      match signAll signOne ks with
      | .error e => .error e
      | .ok ps => .ok (p :: ps)

/-- Embedding of `batch_sign` (`signed_object.rs`): reject an empty key list
with the dedicated error, otherwise sign per key in order, all-or-nothing. -/
def batch_sign {V P K : Type} (sgn sgnDU : V → K → Except SdkError P)
    (value : V) (privateKeys : List K) (is_data_update : Bool) :
    Except SdkError (SignedObj V P) :=
  if privateKeys.isEmpty then .error .noPrivateKeys
  else
    match signAll (fun k => if is_data_update then sgnDU value k else sgn value k)
        privateKeys with
    | .error e => .error e
    | .ok proofs => .ok ⟨value, proofs⟩

/-- The classification used by the `verify` loop: only `Ok(true)` counts as
a valid proof; `Ok(false)` and every error count as invalid. -/
def isOkTrue : Except SdkError Bool → Bool
  | .ok true => true
  | _ => false

theorem toBaseLEAux_fuel (b : Nat) (hb : 2 ≤ b) :
    ∀ n fuel, n < fuel → toBaseLEAux b fuel n = toBaseLE b n := by
  intro n
  induction n using Nat.strong_induction_on with
  | _ n ih =>
    intro fuel hf
    match n, fuel with
    | 0, fuel + 1 => rfl
    | m + 1, fuel + 1 =>
      show ((m + 1) % b) :: toBaseLEAux b fuel ((m + 1) / b) = toBaseLE b (m + 1)
      have hq : (m + 1) / b < m + 1 := Nat.div_lt_self (Nat.succ_pos m) hb
      have h1 : toBaseLEAux b fuel ((m + 1) / b) = toBaseLE b ((m + 1) / b) :=
        ih ((m + 1) / b) hq fuel (by omega)
      have h2 : toBaseLEAux b (m + 1) ((m + 1) / b) = toBaseLE b ((m + 1) / b) :=
        ih ((m + 1) / b) hq (m + 1) hq
      show _ = toBaseLEAux b (m + 2) (m + 1)
      rw [h1]
      show _ = ((m + 1) % b) :: toBaseLEAux b (m + 1) ((m + 1) / b)
      rw [h2]

theorem toBaseLE_zero (b : Nat) : toBaseLE b 0 = [] := rfl

theorem toBaseLE_succ (b n : Nat) (hb : 2 ≤ b) :
    toBaseLE b (n + 1) = ((n + 1) % b) :: toBaseLE b ((n + 1) / b) := by
  show ((n + 1) % b) :: toBaseLEAux b (n + 1) ((n + 1) / b) = _
  rw [toBaseLEAux_fuel b hb ((n + 1) / b) (n + 1)
    (Nat.div_lt_self (Nat.succ_pos n) hb)]

theorem ofBaseLE_nil (b : Nat) : ofBaseLE b [] = 0 := rfl

theorem ofBaseLE_cons (b d : Nat) (ds : List Nat) :
    ofBaseLE b (d :: ds) = d + b * ofBaseLE b ds := rfl

theorem ofBaseLE_toBaseLE (b : Nat) (hb : 2 ≤ b) (n : Nat) :
    ofBaseLE b (toBaseLE b n) = n := by
  induction n using Nat.strong_induction_on with
  | _ n ih =>
    match n with
    | 0 => rfl
    | m + 1 =>
      rw [toBaseLE_succ b m hb, ofBaseLE_cons,
        ih ((m + 1) / b) (Nat.div_lt_self (Nat.succ_pos m) hb)]
      exact Nat.mod_add_div (m + 1) b

theorem toBaseLE_eq_nil_iff (b : Nat) (hb : 2 ≤ b) (n : Nat) :
    toBaseLE b n = [] ↔ n = 0 := by
  constructor
  · intro h
    match n with
    | 0 => rfl
    | m + 1 => rw [toBaseLE_succ b m hb] at h; exact absurd h (by simp)
  · intro h; subst h; rfl

theorem canonLE_toBaseLE (b : Nat) (hb : 2 ≤ b) (n : Nat) :
    CanonLE (toBaseLE b n) := by
  induction n using Nat.strong_induction_on with
  | _ n ih =>
    match n with
    | 0 => intro h; simp [toBaseLE_zero] at h
    | m + 1 =>
      rw [toBaseLE_succ b m hb]
      by_cases hq : (m + 1) / b = 0
      · rw [hq, toBaseLE_zero]
        intro h
        simp only [List.getLast?_singleton, Option.some.injEq] at h
        have hlt : m + 1 < b := (Nat.div_eq_zero_iff (by omega)).mp hq
        rw [Nat.mod_eq_of_lt hlt] at h
        omega
      · have hne : toBaseLE b ((m + 1) / b) ≠ [] := by
          intro hc; exact hq ((toBaseLE_eq_nil_iff b hb _).mp hc)
        have hcan := ih ((m + 1) / b) (Nat.div_lt_self (Nat.succ_pos m) hb)
        unfold CanonLE at *
        obtain ⟨x, xs, hxe⟩ := List.exists_cons_of_ne_nil hne
        rw [hxe, List.getLast?_cons_cons]
        rw [hxe] at hcan
        exact hcan

theorem ofBaseLE_eq_zero (b : Nat) (hb : 2 ≤ b) (ds : List Nat)
    (h : ofBaseLE b ds = 0) : ∀ d ∈ ds, d = 0 := by
  induction ds with
  | nil => intro d hd; simp at hd
  | cons a as ihs =>
    rw [ofBaseLE_cons] at h
    obtain ⟨ha, hm⟩ := Nat.eq_zero_of_add_eq_zero h
    have has : ofBaseLE b as = 0 := by
      rcases Nat.mul_eq_zero.mp hm with hb0 | h0
      · omega
      · exact h0
    intro d hd
    rcases List.mem_cons.mp hd with h1 | h2
    · exact h1 ▸ ha
    · exact ihs has d h2

theorem canonLE_ofBaseLE_pos (b : Nat) (hb : 2 ≤ b) (ds : List Nat)
    (hc : CanonLE ds) (hne : ds ≠ []) : 0 < ofBaseLE b ds := by
  by_contra h
  have h0 : ofBaseLE b ds = 0 := by omega
  have hall := ofBaseLE_eq_zero b hb ds h0
  have hlast := List.getLast?_eq_getLast ds hne
  have : ds.getLast hne = 0 := hall _ (List.getLast_mem hne)
  exact hc (by rw [hlast, this])

theorem toBaseLE_pos (b n : Nat) (hb : 2 ≤ b) (hn : 0 < n) :
    toBaseLE b n = (n % b) :: toBaseLE b (n / b) := by
  match n, hn with
  | m + 1, _ => exact toBaseLE_succ b m hb

theorem b58Carry_eq (ds : List Nat) :
    CanonLE ds → ∀ carry, b58Carry carry ds = toBaseLE 58 (carry + 256 * ofBaseLE 58 ds) := by
  induction ds with
  | nil =>
    intro _ carry
    show toBaseLE 58 carry = toBaseLE 58 (carry + 256 * ofBaseLE 58 [])
    rw [ofBaseLE_nil]
    norm_num
  | cons d ds ihs =>
    intro hc carry
    show ((carry + d * 256) % 58) :: b58Carry ((carry + d * 256) / 58) ds
        = toBaseLE 58 (carry + 256 * ofBaseLE 58 (d :: ds))
    rw [ofBaseLE_cons]
    cases ds with
    | nil =>
      have hd : d ≠ 0 := by
        intro h0
        exact hc (by simp [CanonLE, h0])
      show ((carry + d * 256) % 58) :: toBaseLE 58 ((carry + d * 256) / 58) = _
      rw [ofBaseLE_nil]
      have hpos : 0 < carry + 256 * (d + 58 * 0) := by omega
      rw [toBaseLE_pos 58 _ (by norm_num) hpos]
      have e1 : carry + 256 * (d + 58 * 0) = carry + d * 256 := by ring
      rw [e1]
    | cons x xs =>
      have hc' : CanonLE (x :: xs) := by
        unfold CanonLE at *
        rwa [List.getLast?_cons_cons] at hc
      have hV : 0 < ofBaseLE 58 (x :: xs) :=
        canonLE_ofBaseLE_pos 58 (by norm_num) _ hc' (by simp)
      have hpos : 0 < carry + 256 * (d + 58 * ofBaseLE 58 (x :: xs)) := by omega
      rw [toBaseLE_pos 58 _ (by norm_num) hpos]
      have hmod : (carry + 256 * (d + 58 * ofBaseLE 58 (x :: xs))) % 58
          = (carry + d * 256) % 58 := by omega
      have hdiv : (carry + 256 * (d + 58 * ofBaseLE 58 (x :: xs))) / 58
          = (carry + d * 256) / 58 + 256 * ofBaseLE 58 (x :: xs) := by omega
      rw [hmod, hdiv, ← ihs hc' ((carry + d * 256) / 58)]

theorem b58Fold_eq (data : List Nat) :
    ∀ v, List.foldl (fun n byte => b58Carry byte n) (toBaseLE 58 v) data
        = toBaseLE 58 (List.foldl (fun a byte => 256 * a + byte) v data) := by
  induction data with
  | nil => intro v; rfl
  | cons byte rest ih =>
    intro v
    show List.foldl _ (b58Carry byte (toBaseLE 58 v)) rest = _
    rw [b58Carry_eq _ (canonLE_toBaseLE 58 (by norm_num) v) byte,
      ofBaseLE_toBaseLE 58 (by norm_num) v]
    have h : byte + 256 * v = 256 * v + byte := by ring
    rw [h]
    exact ih (256 * v + byte)

theorem b58Fold_eq_zero (data : List Nat) :
    List.foldl (fun n byte => b58Carry byte n) [] data = toBaseLE 58 (ofBase256BE data) :=
  b58Fold_eq data 0

/-- The imperative base58 loop of `wallet.rs` agrees with the big-integer
base-conversion description on every byte string. -/
theorem base58_encode_eq_spec (data : List Nat) :
    base58_encode data = base58Spec data := by
  by_cases h : data = []
  · subst h; rfl
  · simp only [base58_encode, base58Spec, if_neg h]
    rw [b58Fold_eq_zero]

/-- C7: `get_address` returns the literal `DAG` tag followed by the base58
encoding (standard alphabet, big-integer base conversion, one leading `'1'`
per leading zero byte of the hash) of the SHA-256 hash of the hex-decoded
normalized public key; in particular every address starts with `DAG`. -/
theorem C7_address_format (sha256 : List Nat → List Nat) (pk : List Char) (bs : List Nat)
    (h : hexDecodeChars (normalize_public_key pk) = some bs) :
    get_address sha256 pk = 'D' :: 'A' :: 'G' :: base58Spec (sha256 bs) ∧
      ['D', 'A', 'G'] <+: get_address sha256 pk := by
  constructor
  · show 'D' :: 'A' :: 'G' :: base58_encode (sha256 ((hexDecodeChars
      (normalize_public_key pk)).getD [])) = _
    rw [h, base58_encode_eq_spec]
    rfl
  · exact ⟨_, rfl⟩

theorem C7_address_format_witness :
    hexDecodeChars (normalize_public_key []) = some [] ∧
      get_address (fun _ => [0, 1]) [] = ['D', 'A', 'G', '1', '2'] :=
  ⟨by decide,
    ((C7_address_format (fun _ => [0, 1]) [] [] (by decide)).1).trans (by decide)⟩

/-- C10: `get_address` is total: when the normalized key does not hex-decode,
the byte string falls back to empty (`unwrap_or_default`) and the result is
`DAG` followed by the base58 encoding of the SHA-256 of the empty byte
string. -/
theorem C10_address_total_fallback (sha256 : List Nat → List Nat) (pk : List Char)
    (h : hexDecodeChars (normalize_public_key pk) = none) :
    get_address sha256 pk = 'D' :: 'A' :: 'G' :: base58_encode (sha256 []) := by
  show 'D' :: 'A' :: 'G' :: base58_encode (sha256 ((hexDecodeChars
    (normalize_public_key pk)).getD [])) = _
  rw [h]
  rfl

theorem C10_address_total_fallback_witness :
    hexDecodeChars (normalize_public_key ['z']) = none ∧
      get_address (fun _ => []) ['z'] = ['D', 'A', 'G'] :=
  ⟨by decide,
    (C10_address_total_fallback (fun _ => []) ['z'] (by decide)).trans (by decide)⟩

/-- C1: the digest protocol is bit-exact: `compute_digest_from_bytes` is the
first 32 bytes of SHA-512 of the lowercase-hex ASCII text of SHA-256 of the
data; `compute_digest_from_hash` is the first 32 bytes of SHA-512 of the hex
text bytes; the two agree on a computed hash; and `compute_digest` is
`compute_digest_from_bytes` after `to_bytes`. -/
theorem C1_digest_protocol {V : Type} (sha256 sha512 : List Nat → List Nat)
    (canonical : V → Except SdkError (List Nat))
    (data hashHex : List Nat) (v : V) (f : Bool) :
    compute_digest_from_bytes sha256 sha512 data
        = (sha512 (hexEncodeBytes (sha256 data))).take 32 ∧
      compute_digest_from_hash sha512 hashHex = (sha512 hashHex).take 32 ∧
      compute_digest_from_bytes sha256 sha512 data
        = compute_digest_from_hash sha512 (hexEncodeBytes (sha256 data)) ∧
      compute_digest canonical sha256 sha512 v f
        = (to_bytes canonical v f).map (compute_digest_from_bytes sha256 sha512) := by
  refine ⟨rfl, rfl, rfl, ?_⟩
  unfold compute_digest
  cases to_bytes canonical v f <;> rfl

/-- C3: `to_bytes` with the flag off returns the canonical bytes unchanged;
with the flag on it returns byte `0x19`, the ASCII text
`Constellation Signed Data:`, a newline, the decimal ASCII length of the
base64 text of the canonical bytes, a newline, and the base64 text. -/
theorem C3_to_bytes_framing {V : Type} (canonical : V → Except SdkError (List Nat))
    (v : V) (bs : List Nat) (h : canonical v = .ok bs) :
    to_bytes canonical v false = .ok bs ∧
      to_bytes canonical v true = .ok
        ([25, 67, 111, 110, 115, 116, 101, 108, 108, 97, 116, 105, 111, 110, 32,
          83, 105, 103, 110, 101, 100, 32, 68, 97, 116, 97, 58, 10] ++
         natDigitBytes (b64EncodeBytes bs).length ++ [10] ++ b64EncodeBytes bs) := by
  constructor
  · simp [to_bytes, h]
  · simp [to_bytes, h, CONSTELLATION_PREFIX_BYTES, List.append_assoc]

theorem C3_to_bytes_framing_witness :
    to_bytes (fun _ : Unit => (.ok [1, 2, 3] : Except SdkError (List Nat))) () false
        = .ok [1, 2, 3] ∧
      to_bytes (fun _ : Unit => (.ok [1, 2, 3] : Except SdkError (List Nat))) () true
        = .ok [25, 67, 111, 110, 115, 116, 101, 108, 108, 97, 116, 105, 111, 110, 32,
            83, 105, 103, 110, 101, 100, 32, 68, 97, 116, 97, 58, 10,
            52, 10, 65, 81, 73, 68] := by
  have h := C3_to_bytes_framing (fun _ : Unit => (.ok [1, 2, 3] : Except SdkError (List Nat)))
    () [1, 2, 3] rfl
  exact ⟨h.1, h.2.trans rfl⟩

/-- C9: when the value fails to serialize, `verify` swallows the error and
returns an all-invalid result: `is_valid = false`, no valid proofs, and the
entire original proof list, in order, as invalid. -/
theorem C9_verify_serialization_failure {V P : Type}
    (canonical : V → Except SdkError (List Nat)) (sha256 : List Nat → List Nat)
    (vh : List Nat → P → Except SdkError Bool) (s : SignedObj V P) (f : Bool)
    (e : SdkError) (h : to_bytes canonical s.value f = .error e) :
    verify canonical sha256 vh s f = ⟨false, [], s.proofs⟩ := by
  simp [verify, h]

theorem C9_verify_serialization_failure_witness :
    verify (fun _ : Unit => (.error .serializationError : Except SdkError (List Nat)))
      (fun _ => []) (fun _ _ => .ok true) ⟨(), [7]⟩ false
      = ⟨false, [], [7]⟩ :=
  C9_verify_serialization_failure _ _ _ ⟨(), [7]⟩ false .serializationError rfl

/-- C6: a successful `add_signature` leaves the value unchanged and appends
exactly one new proof at the end of the original proof list, which is
preserved verbatim. -/
theorem C6_add_signature_appends {V P K : Type}
    (sgn sgnDU : V → K → Except SdkError P) (s : SignedObj V P) (k : K) (f : Bool)
    (t : SignedObj V P) (h : add_signature sgn sgnDU s k f = .ok t) :
    t.value = s.value ∧ ∃ p, t.proofs = s.proofs ++ [p] ∧
      (if f then sgnDU s.value k else sgn s.value k) = .ok p := by
  unfold add_signature at h
  cases hs : (if f then sgnDU s.value k else sgn s.value k) with
  | error e => rw [hs] at h; simp at h
  | ok p =>
    rw [hs] at h
    simp only [Except.ok.injEq] at h
    subst h
    exact ⟨rfl, p, rfl, rfl⟩

theorem C6_add_signature_appends_witness :
    (SignedObj.mk () [5, 6, 9] : SignedObj Unit Nat).value
        = (SignedObj.mk () [5, 6] : SignedObj Unit Nat).value ∧
      ∃ p, (SignedObj.mk () [5, 6, 9] : SignedObj Unit Nat).proofs
          = (SignedObj.mk () [5, 6] : SignedObj Unit Nat).proofs ++ [p] ∧
        (if false then (.ok 9 : Except SdkError Nat) else .ok 9) = .ok p :=
  C6_add_signature_appends (fun (_ : Unit) (_ : Unit) => (.ok 9 : Except SdkError Nat))
    (fun _ _ => .ok 9) ⟨(), [5, 6]⟩ () false ⟨(), [5, 6, 9]⟩ rfl

theorem signAll_ok {P K : Type} (signOne : K → Except SdkError P) :
    ∀ (ks : List K) (ps : List P), signAll signOne ks = .ok ps →
      List.Forall₂ (fun k p => signOne k = .ok p) ks ps := by
  intro ks
  induction ks with
  | nil =>
    intro ps h
    simp only [signAll, Except.ok.injEq] at h
    subst h
    exact List.Forall₂.nil
  | cons k rest ih =>
    intro ps h
    unfold signAll at h
    cases hk : signOne k with
    | error e => rw [hk] at h; simp at h
    | ok p =>
      rw [hk] at h
      cases hr : signAll signOne rest with
      | error e => rw [hr] at h; simp at h
      | ok qs =>
        rw [hr] at h
        simp only [Except.ok.injEq] at h
        subst h
        exact List.Forall₂.cons hk (ih qs hr)

theorem signAll_err {P K : Type} (signOne : K → Except SdkError P) :
    ∀ ks : List K, (∃ k ∈ ks, ∀ p : P, signOne k ≠ .ok p) →
      ∃ e, signAll signOne ks = .error e := by
  intro ks
  induction ks with
  | nil => rintro ⟨k, hk, _⟩; simp at hk
  | cons k rest ih =>
    rintro ⟨k0, hk0, hfail⟩
    unfold signAll
    cases hk : signOne k with
    | error e => exact ⟨e, rfl⟩
    | ok p =>
      rcases List.mem_cons.mp hk0 with h1 | h2
      · subst h1; exact absurd hk (hfail p)
      · obtain ⟨e, he⟩ := ih ⟨k0, h2, hfail⟩
        rw [he]
        exact ⟨e, rfl⟩

/-- C5: `batch_sign` fails with the dedicated no-private-keys error on an
empty key list; any single signing failure makes the whole call fail (so no
partially-signed object is returned); and a successful call returns the
value with exactly one proof per supplied key, produced in key order. -/
theorem C5_batch_sign {V P K : Type} (sgn sgnDU : V → K → Except SdkError P)
    (value : V) (f : Bool) :
    batch_sign sgn sgnDU value ([] : List K) f = .error .noPrivateKeys ∧
    (∀ ks : List K,
      (∃ k ∈ ks, ∀ p : P, (if f then sgnDU value k else sgn value k) ≠ .ok p) →
      ∃ e, batch_sign sgn sgnDU value ks f = .error e) ∧
    (∀ (ks : List K) (s : SignedObj V P), batch_sign sgn sgnDU value ks f = .ok s →
      s.value = value ∧ s.proofs.length = ks.length ∧
        List.Forall₂ (fun k p => (if f then sgnDU value k else sgn value k) = .ok p)
          ks s.proofs) := by
  refine ⟨rfl, ?_, ?_⟩
  · intro ks hfail
    cases ks with
    | nil => obtain ⟨k, hk, _⟩ := hfail; simp at hk
    | cons k rest =>
      obtain ⟨e, he⟩ :=
        signAll_err (fun k => if f then sgnDU value k else sgn value k) (k :: rest) hfail
      refine ⟨e, ?_⟩
      simp [batch_sign, he]
  · intro ks s h
    obtain ⟨sv, sp⟩ := s
    cases ks with
    | nil => simp [batch_sign] at h
    | cons k rest =>
      cases hs : signAll (fun k => if f then sgnDU value k else sgn value k) (k :: rest) with
      | error e => simp [batch_sign, hs] at h
      | ok ps =>
        simp only [batch_sign, List.isEmpty_cons, Bool.false_eq_true, if_false, hs,
          Except.ok.injEq, SignedObj.mk.injEq] at h
        obtain ⟨h1, h2⟩ := h
        subst h1
        subst h2
        have hf := signAll_ok _ (k :: rest) ps hs
        exact ⟨rfl, (List.Forall₂.length_eq hf).symm, hf⟩

theorem C5_batch_sign_witness :
    batch_sign (fun (_ : Unit) (_ : Unit) => (.ok 7 : Except SdkError Nat))
      (fun _ _ => .ok 7) () ([] : List Unit) false = .error .noPrivateKeys :=
  (C5_batch_sign (fun _ _ => .ok 7) (fun _ _ => .ok 7) () false).1

theorem partitionProofs_eq_filter {P : Type} (check : P → Except SdkError Bool) :
    ∀ ps : List P, partitionProofs check ps =
      (ps.filter (fun p => isOkTrue (check p)),
       ps.filter (fun p => !isOkTrue (check p))) := by
  intro ps
  induction ps with
  | nil => rfl
  | cons p rest ih =>
    unfold partitionProofs
    rw [ih]
    cases hc : check p with
    | error e => simp [List.filter_cons, isOkTrue, hc]
    | ok b =>
      cases b with
      | true => simp [List.filter_cons, isOkTrue, hc]
      | false => simp [List.filter_cons, isOkTrue, hc]

/-- C2: `verify` always returns a `VerificationResult` (it is total by type);
its valid and invalid lists are order-preserving filters of the original
proof list under one boolean classification (in the serialization-success
path that classification is exactly `verify_hash` yielding `Ok(true)`, so a
proof whose check returns `Ok(false)` or errors is put in the invalid list
rather than aborting the pass); `is_valid` equals
`invalid_proofs.isEmpty && !valid_proofs.isEmpty`; and an object with zero
proofs is never valid. -/
theorem C2_verify_partition {V P : Type} (canonical : V → Except SdkError (List Nat))
    (sha256 : List Nat → List Nat) (vh : List Nat → P → Except SdkError Bool)
    (s : SignedObj V P) (f : Bool) :
    (∃ c : P → Bool,
      (verify canonical sha256 vh s f).valid_proofs = s.proofs.filter c ∧
        (verify canonical sha256 vh s f).invalid_proofs
          = s.proofs.filter (fun p => !c p)) ∧
    (∀ bytes, to_bytes canonical s.value f = .ok bytes →
      (verify canonical sha256 vh s f).valid_proofs
          = s.proofs.filter (fun p => isOkTrue (vh (hash_bytes sha256 bytes).value p)) ∧
        (verify canonical sha256 vh s f).invalid_proofs
          = s.proofs.filter (fun p => !isOkTrue (vh (hash_bytes sha256 bytes).value p))) ∧
    (verify canonical sha256 vh s f).is_valid
        = ((verify canonical sha256 vh s f).invalid_proofs.isEmpty &&
           !(verify canonical sha256 vh s f).valid_proofs.isEmpty) ∧
    (s.proofs = [] → (verify canonical sha256 vh s f).is_valid = false) := by
  cases hb : to_bytes canonical s.value f with
  | error e =>
    refine ⟨⟨fun _ => false, ?_, ?_⟩, ?_, ?_, ?_⟩
    · simp [verify, hb]
    · simp [verify, hb]
    · intro bytes hbytes; exact Except.noConfusion hbytes
    · simp [verify, hb]
    · intro hp; simp [verify, hb]
  | ok bytes =>
    have hpart := partitionProofs_eq_filter
      (fun p => vh (hash_bytes sha256 bytes).value p) s.proofs
    have hv : verify canonical sha256 vh s f =
        ⟨(s.proofs.filter (fun p => !isOkTrue (vh (hash_bytes sha256 bytes).value p))).isEmpty &&
           !(s.proofs.filter (fun p => isOkTrue (vh (hash_bytes sha256 bytes).value p))).isEmpty,
         s.proofs.filter (fun p => isOkTrue (vh (hash_bytes sha256 bytes).value p)),
         s.proofs.filter (fun p => !isOkTrue (vh (hash_bytes sha256 bytes).value p))⟩ := by
      simp only [verify, hb, hpart]
    refine ⟨⟨fun p => isOkTrue (vh (hash_bytes sha256 bytes).value p), ?_, ?_⟩, ?_, ?_, ?_⟩
    · rw [hv]
    · rw [hv]
    · intro bytes2 hbytes2
      have hbb : bytes = bytes2 := Except.ok.inj hbytes2
      subst hbb
      exact ⟨by rw [hv], by rw [hv]⟩
    · rw [hv]
    · intro hp; rw [hv]; simp [hp]

theorem C2_verify_partition_witness :
    (verify (fun _ : Unit => (.ok [] : Except SdkError (List Nat))) (fun _ => [])
        (fun _ p => if p = 1 then .ok true else .error .cryptoError)
        ⟨(), [1, 2]⟩ false).is_valid
      = ((verify (fun _ : Unit => (.ok [] : Except SdkError (List Nat))) (fun _ => [])
            (fun _ p => if p = 1 then .ok true else .error .cryptoError)
            ⟨(), [1, 2]⟩ false).invalid_proofs.isEmpty &&
         !(verify (fun _ : Unit => (.ok [] : Except SdkError (List Nat))) (fun _ => [])
            (fun _ p => if p = 1 then .ok true else .error .cryptoError)
            ⟨(), [1, 2]⟩ false).valid_proofs.isEmpty) :=
  (C2_verify_partition _ _ _ ⟨(), [1, 2]⟩ false).2.2.1

theorem b64Index_b64CharOf : ∀ i, i < 64 → b64Index (b64CharOf i) = some i := by decide

theorem b64CharOf_ne_pad : ∀ i, i < 64 → b64CharOf i ≠ B64_PAD := by decide

theorem b64_alphabet_lt128 : ∀ x ∈ B64_BYTES, x < 128 := by decide

theorem b64CharOf_lt128_small : ∀ i, i < 64 → b64CharOf i < 128 := by decide

theorem b64CharOf_lt128 (i : Nat) : b64CharOf i < 128 := by
  by_cases h : i < 64
  · exact b64CharOf_lt128_small i h
  · unfold b64CharOf
    rw [List.getD_eq_default]
    · norm_num
    · have hlen : B64_BYTES.length = 64 := by decide
      omega

theorem lookupIdx_eq_none (l : List Nat) (b : Nat) (h : ∀ a ∈ l, a ≠ b) :
    lookupIdx l b = none := by
  induction l with
  | nil => rfl
  | cons a as ih =>
    unfold lookupIdx
    rw [if_neg (h a (by simp)), ih (fun x hx => h x (by simp [hx]))]
    rfl

theorem lookupIdx_mem : ∀ (l : List Nat) (b i : Nat), lookupIdx l b = some i → b ∈ l := by
  intro l
  induction l with
  | nil => intro b i h; simp [lookupIdx] at h
  | cons a as ih =>
    intro b i h
    unfold lookupIdx at h
    by_cases ha : a = b
    · simp [ha]
    · rw [if_neg ha] at h
      cases hs : lookupIdx as b with
      | none => rw [hs] at h; simp at h
      | some j => exact List.mem_cons_of_mem a (ih b j hs)

theorem b64Index_none_of_big (b : Nat) (h : 128 ≤ b) : b64Index b = none :=
  lookupIdx_eq_none _ _ (fun a ha => by have := b64_alphabet_lt128 a ha; omega)

theorem b64Index_lt128 (b i : Nat) (h : b64Index b = some i) : b < 128 :=
  b64_alphabet_lt128 b (lookupIdx_mem _ _ _ h)

theorem b64_roundtrip : ∀ bs : List Nat, (∀ x ∈ bs, x < 256) →
    b64DecodeBytes (b64EncodeBytes bs) = some bs
  | [], _ => rfl
  | [a], h => by
    have ha : a < 256 := h a (by simp)
    have h1 := b64Index_b64CharOf (a / 4) (by omega)
    have h2 := b64Index_b64CharOf (a % 4 * 16) (by omega)
    show b64DecodeBytes [b64CharOf (a / 4), b64CharOf (a % 4 * 16), B64_PAD, B64_PAD]
        = some [a]
    simp only [b64DecodeBytes, h1, h2]
    rw [if_pos (by simp), if_pos (by omega : a % 4 * 16 % 16 = 0)]
    have e : a / 4 * 4 + a % 4 * 16 / 16 = a := by omega
    rw [e]
  | [a, b], h => by
    have ha : a < 256 := h a (by simp)
    have hb : b < 256 := h b (by simp)
    have h1 := b64Index_b64CharOf (a / 4) (by omega)
    have h2 := b64Index_b64CharOf (a % 4 * 16 + b / 16) (by omega)
    have h3 := b64Index_b64CharOf (b % 16 * 4) (by omega)
    have hne := b64CharOf_ne_pad (b % 16 * 4) (by omega)
    show b64DecodeBytes [b64CharOf (a / 4), b64CharOf (a % 4 * 16 + b / 16),
        b64CharOf (b % 16 * 4), B64_PAD] = some [a, b]
    simp only [b64DecodeBytes, h1, h2]
    rw [if_neg (fun hx => hne hx.1), if_pos (by simp)]
    simp only [h3]
    rw [if_pos (by omega : b % 16 * 4 % 4 = 0)]
    have e1 : a / 4 * 4 + (a % 4 * 16 + b / 16) / 16 = a := by omega
    have e2 : (a % 4 * 16 + b / 16) % 16 * 16 + b % 16 * 4 / 4 = b := by omega
    rw [e1, e2]
  | a :: b :: c :: rest, h => by
    have ha : a < 256 := h a (by simp)
    have hb : b < 256 := h b (by simp)
    have hc : c < 256 := h c (by simp)
    have ih := b64_roundtrip rest (fun x hx => h x (by simp [hx]))
    have h1 := b64Index_b64CharOf (a / 4) (by omega)
    have h2 := b64Index_b64CharOf (a % 4 * 16 + b / 16) (by omega)
    have h3 := b64Index_b64CharOf (b % 16 * 4 + c / 64) (by omega)
    have h4 := b64Index_b64CharOf (c % 64) (by omega)
    have hne3 := b64CharOf_ne_pad (b % 16 * 4 + c / 64) (by omega)
    have hne4 := b64CharOf_ne_pad (c % 64) (by omega)
    show b64DecodeBytes (b64CharOf (a / 4) :: b64CharOf (a % 4 * 16 + b / 16) ::
        b64CharOf (b % 16 * 4 + c / 64) :: b64CharOf (c % 64) :: b64EncodeBytes rest)
        = some (a :: b :: c :: rest)
    simp only [b64DecodeBytes, h1, h2]
    rw [if_neg (fun hx => hne3 hx.1), if_neg (fun hx => hne4 hx.1)]
    simp only [h3, h4, ih]
    have e1 : a / 4 * 4 + (a % 4 * 16 + b / 16) / 16 = a := by omega
    have e2 : (a % 4 * 16 + b / 16) % 16 * 16 + (b % 16 * 4 + c / 64) / 4 = b := by omega
    have e3 : (b % 16 * 4 + c / 64) % 4 * 64 + c % 64 = c := by omega
    rw [e1, e2, e3]

theorem b64Encode_lt128 : ∀ (bs : List Nat) (x : Nat), x ∈ b64EncodeBytes bs → x < 128
  | [], x, hx => by simp [b64EncodeBytes] at hx
  | [a], x, hx => by
    simp only [b64EncodeBytes, List.mem_cons, List.not_mem_nil, or_false] at hx
    rcases hx with rfl | rfl | rfl | rfl
    · exact b64CharOf_lt128 _
    · exact b64CharOf_lt128 _
    · norm_num [B64_PAD]
    · norm_num [B64_PAD]
  | [a, b], x, hx => by
    simp only [b64EncodeBytes, List.mem_cons, List.not_mem_nil, or_false] at hx
    rcases hx with rfl | rfl | rfl | rfl
    · exact b64CharOf_lt128 _
    · exact b64CharOf_lt128 _
    · exact b64CharOf_lt128 _
    · norm_num [B64_PAD]
  | a :: b :: c :: rest, x, hx => by
    simp only [b64EncodeBytes, List.mem_cons] at hx
    rcases hx with rfl | rfl | rfl | rfl | hx
    · exact b64CharOf_lt128 _
    · exact b64CharOf_lt128 _
    · exact b64CharOf_lt128 _
    · exact b64CharOf_lt128 _
    · exact b64Encode_lt128 rest x hx

theorem toBaseLE_lt (b : Nat) (hb : 2 ≤ b) (n : Nat) : ∀ d ∈ toBaseLE b n, d < b := by
  induction n using Nat.strong_induction_on with
  | _ n ih =>
    match n with
    | 0 => intro d hd; simp [toBaseLE_zero] at hd
    | m + 1 =>
      rw [toBaseLE_succ b m hb]
      intro d hd
      rcases List.mem_cons.mp hd with h1 | h2
      · subst h1; exact Nat.mod_lt _ (by omega)
      · exact ih ((m + 1) / b) (Nat.div_lt_self (Nat.succ_pos m) hb) d h2

theorem natDigitBytes_bounds (n : Nat) : ∀ x ∈ natDigitBytes n, 48 ≤ x ∧ x ≤ 57 := by
  intro x hx
  unfold natDigitBytes at hx
  split at hx
  · simp at hx; omega
  · simp only [List.mem_map, List.mem_reverse] at hx
    obtain ⟨d, hd, rfl⟩ := hx
    have := toBaseLE_lt 10 (by norm_num) n d hd
    omega

theorem parseDigitsAux_digits : ∀ (ds : List Nat) (acc : Nat), (∀ d ∈ ds, d < 10) →
    parseDigitsAux (ds.map (· + 48)) acc
      = some (ds.foldl (fun a d => a * 10 + d) acc) := by
  intro ds
  induction ds with
  | nil => intro acc _; rfl
  | cons d rest ih =>
    intro acc hall
    have hd : d < 10 := hall d (by simp)
    show parseDigitsAux ((d + 48) :: rest.map (· + 48)) acc = _
    unfold parseDigitsAux
    have hv : decDigitVal (d + 48) = some d := by
      unfold decDigitVal
      rw [if_pos (by omega)]
      norm_num
    rw [hv]
    exact ih (acc * 10 + d) (fun x hx => hall x (by simp [hx]))

theorem foldl_digits_reverse (base : Nat) : ∀ (ds : List Nat) (acc : Nat),
    ds.reverse.foldl (fun a d => a * base + d) acc
      = acc * base ^ ds.length + ofBaseLE base ds := by
  intro ds
  induction ds with
  | nil => intro acc; simp [ofBaseLE_nil]
  | cons d rest ih =>
    intro acc
    simp only [List.reverse_cons, List.foldl_append, List.foldl_cons, List.foldl_nil]
    rw [ih acc, ofBaseLE_cons]
    simp only [List.length_cons]
    ring

theorem parseNat_natDigitBytes (n : Nat) (h : n < 2 ^ 64) :
    parseNatBytes (natDigitBytes n) = some n := by
  by_cases h0 : n = 0
  · subst h0; decide
  · have hbounds := natDigitBytes_bounds n
    have hL : natDigitBytes n = (toBaseLE 10 n).reverse.map (· + 48) := by
      unfold natDigitBytes; rw [if_neg h0]
    have hne : natDigitBytes n ≠ [] := by
      rw [hL]
      intro hcontra
      have : toBaseLE 10 n = [] := by
        cases he : toBaseLE 10 n with
        | nil => rfl
        | cons z zs => rw [he] at hcontra; simp at hcontra
      exact h0 ((toBaseLE_eq_nil_iff 10 (by norm_num) n).mp this)
    obtain ⟨y, ys, hys⟩ := List.exists_cons_of_ne_nil hne
    have hy : 48 ≤ y := (hbounds y (by rw [hys]; simp)).1
    have hstrip : stripPlus (natDigitBytes n) = natDigitBytes n := by
      rw [hys]
      show (if y = 43 then ys else y :: ys) = y :: ys
      rw [if_neg (by omega)]
    unfold parseNatBytes
    rw [hstrip, hys]
    show (match parseDigitsAux (y :: ys) 0 with
          | some v => if v < 2 ^ 64 then some v else none
          | none => none) = some n
    rw [← hys, hL]
    rw [parseDigitsAux_digits _ 0 (by
      intro d hd
      rw [List.mem_reverse] at hd
      exact toBaseLE_lt 10 (by norm_num) n d hd)]
    rw [foldl_digits_reverse 10 (toBaseLE 10 n) 0,
      ofBaseLE_toBaseLE 10 (by norm_num) n]
    simp only [Nat.zero_mul, Nat.zero_add]
    rw [if_pos h]

theorem parseDigitsAux_bad : ∀ (bs : List Nat) (x : Nat), x ∈ bs → decDigitVal x = none →
    ∀ acc, parseDigitsAux bs acc = none := by
  intro bs
  induction bs with
  | nil => intro x hx; simp at hx
  | cons b rest ih =>
    intro x hx hbad acc
    unfold parseDigitsAux
    rcases List.mem_cons.mp hx with h1 | h2
    · subst h1; rw [hbad]
    · cases hd : decDigitVal b with
      | none => rfl
      | some d => exact ih x h2 hbad (acc * 10 + d)

theorem parseNatTail_bad (core : List Nat) (x : Nat) (hx : x ∈ core)
    (hbad : decDigitVal x = none) : parseNatTail core = none := by
  cases core with
  | nil => rfl
  | cons y ys =>
    show (match parseDigitsAux (y :: ys) 0 with
          | some v => if v < 2 ^ 64 then some v else none
          | none => none) = none
    rw [parseDigitsAux_bad (y :: ys) x hx hbad 0]

theorem parseNatBytes_none_of_big (bs : List Nat) (x : Nat) (hx : x ∈ bs)
    (hbig : 128 ≤ x) : parseNatBytes bs = none := by
  have hbad : decDigitVal x = none := by
    unfold decDigitVal; rw [if_neg (by omega)]
  unfold parseNatBytes
  cases bs with
  | nil => simp at hx
  | cons y ys =>
    show parseNatTail (if y = 43 then ys else y :: ys) = none
    by_cases hy : y = 43
    · rw [if_pos hy]
      have hxys : x ∈ ys := by
        rcases List.mem_cons.mp hx with h1 | h2
        · exfalso; omega
        · exact h2
      exact parseNatTail_bad ys x hxys hbad
    · rw [if_neg hy]
      exact parseNatTail_bad (y :: ys) x hx hbad

theorem splitn2_append (sep : Nat) : ∀ (a b : List Nat), sep ∉ a →
    splitn2 (a ++ sep :: b) sep = some (a, b) := by
  intro a
  induction a with
  | nil =>
    intro b _
    show splitn2 (sep :: b) sep = _
    unfold splitn2
    rw [if_pos rfl]
  | cons x xs ih =>
    intro b hx
    have hxs : x ≠ sep := fun hcontra => hx (by simp [hcontra])
    show splitn2 (x :: (xs ++ sep :: b)) sep = _
    unfold splitn2
    rw [if_neg hxs, ih b (fun hcontra => hx (by simp [hcontra]))]
    rfl

theorem splitn2_none_iff (sep : Nat) : ∀ l : List Nat, splitn2 l sep = none ↔ sep ∉ l := by
  intro l
  induction l with
  | nil => simp [splitn2]
  | cons x xs ih =>
    unfold splitn2
    by_cases hx : x = sep
    · rw [if_pos hx]
      subst hx
      simp
    · rw [if_neg hx]
      constructor
      · intro h hm
        have hn : splitn2 xs sep = none := by
          cases hs : splitn2 xs sep with
          | none => rfl
          | some p => rw [hs] at h; simp at h
        rcases List.mem_cons.mp hm with h1 | h2
        · exact hx h1.symm
        · exact (ih.mp hn) h2
      · intro hm
        have : sep ∉ xs := fun hc => hm (List.mem_cons_of_mem x hc)
        rw [ih.mpr this]
        rfl

theorem splitn2_some (sep : Nat) : ∀ (l a b : List Nat), splitn2 l sep = some (a, b) →
    l = a ++ sep :: b ∧ sep ∉ a := by
  intro l
  induction l with
  | nil => intro a b h; simp [splitn2] at h
  | cons x xs ih =>
    intro a b h
    unfold splitn2 at h
    by_cases hx : x = sep
    · rw [if_pos hx] at h
      simp only [Option.some.injEq, Prod.mk.injEq] at h
      obtain ⟨ha, hb⟩ := h
      subst ha; subst hb; subst hx
      exact ⟨rfl, by simp⟩
    · rw [if_neg hx] at h
      cases hs : splitn2 xs sep with
      | none => rw [hs] at h; simp at h
      | some p =>
        obtain ⟨p1, p2⟩ := p
        rw [hs] at h
        simp only [Option.map_some', Option.some.injEq, Prod.mk.injEq] at h
        obtain ⟨ha, hb⟩ := h
        subst ha; subst hb
        obtain ⟨he, hm⟩ := ih p1 p2 hs
        constructor
        · rw [he]; rfl
        · intro hcontra
          rcases List.mem_cons.mp hcontra with h1 | h2
          · exact hx h1.symm
          · exact hm h2

theorem utf8Valid_cons_ascii (b : Nat) (rest : List Nat) (hb : b < 128) :
    utf8Valid (b :: rest) = utf8Valid rest := by
  rw [utf8Valid]
  rw [if_pos hb]

theorem utf8Valid_ascii : ∀ l : List Nat, (∀ x ∈ l, x < 128) → utf8Valid l = true := by
  intro l
  induction l with
  | nil => intro _; rfl
  | cons b rest ih =>
    intro h
    rw [utf8Valid_cons_ascii b rest (h b (by simp))]
    exact ih (fun x hx => h x (by simp [hx]))

theorem startsWithBytes_append : ∀ a t : List Nat, startsWithBytes a (a ++ t) = true := by
  intro a
  induction a with
  | nil => intro t; rfl
  | cons x xs ih =>
    intro t
    show (x == x && startsWithBytes xs (xs ++ t)) = true
    rw [ih t]
    simp

theorem startsWithBytes_iff : ∀ a l : List Nat,
    startsWithBytes a l = true ↔ ∃ t, l = a ++ t := by
  intro a
  induction a with
  | nil =>
    intro l
    constructor
    · intro _; exact ⟨l, rfl⟩
    · intro _; rfl
  | cons x xs ih =>
    intro l
    cases l with
    | nil =>
      constructor
      · intro h; simp [startsWithBytes] at h
      · rintro ⟨t, ht⟩; simp at ht
    | cons y ys =>
      show (x == y && startsWithBytes xs ys) = true ↔ _
      rw [Bool.and_eq_true, beq_iff_eq, ih ys]
      constructor
      · rintro ⟨rfl, t, rfl⟩; exact ⟨t, rfl⟩
      · rintro ⟨t, ht⟩
        injection ht with h1 h2
        exact ⟨h1.symm, t, h2⟩

theorem constellation_lt128 : ∀ x ∈ CONSTELLATION_PREFIX_BYTES, x < 128 := by decide

theorem mem_first_split (x : Nat) : ∀ l : List Nat, x ∈ l →
    ∃ a b, l = a ++ x :: b ∧ x ∉ a := by
  intro l
  induction l with
  | nil => intro h; simp at h
  | cons y ys ih =>
    intro h
    by_cases hy : y = x
    · subst hy; exact ⟨[], ys, rfl, by simp⟩
    · have hx : x ∈ ys := by
        rcases List.mem_cons.mp h with h1 | h2
        · exact absurd h1.symm hy
        · exact h2
      obtain ⟨a, b, he, hm⟩ := ih hx
      refine ⟨y :: a, b, by rw [he]; rfl, ?_⟩
      intro hcontra
      rcases List.mem_cons.mp hcontra with h1 | h2
      · exact hy h1.symm
      · exact hm h2

theorem b64Decode_lt128 : ∀ (l bs : List Nat), b64DecodeBytes l = some bs →
    ∀ x ∈ l, x < 128
  | [], _, _, x, hx => by simp at hx
  | [c1], bs, h, x, hx => by simp [b64DecodeBytes] at h
  | [c1, c2], bs, h, x, hx => by simp [b64DecodeBytes] at h
  | [c1, c2, c3], bs, h, x, hx => by simp [b64DecodeBytes] at h
  | c1 :: c2 :: c3 :: c4 :: rest, bs, h, x, hx => by
    cases h1 : b64Index c1 with
    | none => simp [b64DecodeBytes, h1] at h
    | some i1 =>
    cases h2 : b64Index c2 with
    | none => simp [b64DecodeBytes, h1, h2] at h
    | some i2 =>
    by_cases hc3 : c3 = B64_PAD
    · by_cases hc4 : c4 = B64_PAD
      · by_cases hre : rest = []
        · subst hc3; subst hc4; subst hre
          rcases List.mem_cons.mp hx with rfl | hx
          · exact b64Index_lt128 x i1 h1
          rcases List.mem_cons.mp hx with rfl | hx
          · exact b64Index_lt128 x i2 h2
          rcases List.mem_cons.mp hx with rfl | hx
          · norm_num [B64_PAD]
          rcases List.mem_cons.mp hx with rfl | hx
          · norm_num [B64_PAD]
          · simp at hx
        · subst hc3; subst hc4
          have h3 : b64Index B64_PAD = none := by decide
          simp [b64DecodeBytes, h1, h2, hre, h3] at h
      · subst hc3
        have h3 : b64Index B64_PAD = none := by decide
        simp [b64DecodeBytes, h1, h2, hc4, h3] at h
    · by_cases hc4 : c4 = B64_PAD ∧ rest = []
      · obtain ⟨hc4p, hre⟩ := hc4
        subst hc4p; subst hre
        cases h3 : b64Index c3 with
        | none => simp [b64DecodeBytes, h1, h2, hc3, h3] at h
        | some i3 =>
          rcases List.mem_cons.mp hx with rfl | hx
          · exact b64Index_lt128 x i1 h1
          rcases List.mem_cons.mp hx with rfl | hx
          · exact b64Index_lt128 x i2 h2
          rcases List.mem_cons.mp hx with rfl | hx
          · exact b64Index_lt128 x i3 h3
          rcases List.mem_cons.mp hx with rfl | hx
          · norm_num [B64_PAD]
          · simp at hx
      · cases h3 : b64Index c3 with
        | none => simp [b64DecodeBytes, h1, h2, hc3, hc4, h3] at h
        | some i3 =>
        cases h4 : b64Index c4 with
        | none => simp [b64DecodeBytes, h1, h2, hc3, hc4, h3, h4] at h
        | some i4 =>
        cases hr : b64DecodeBytes rest with
        | none => simp [b64DecodeBytes, h1, h2, hc3, hc4, h3, h4, hr] at h
        | some ds =>
          rcases List.mem_cons.mp hx with rfl | hx
          · exact b64Index_lt128 x i1 h1
          rcases List.mem_cons.mp hx with rfl | hx
          · exact b64Index_lt128 x i2 h2
          rcases List.mem_cons.mp hx with rfl | hx
          · exact b64Index_lt128 x i3 h3
          rcases List.mem_cons.mp hx with rfl | hx
          · exact b64Index_lt128 x i4 h4
          · exact b64Decode_lt128 rest ds hr x hx

theorem b64Decode_none_of_big : ∀ (l : List Nat) (x : Nat), x ∈ l → 128 ≤ x →
    b64DecodeBytes l = none
  | [], x, hx, _ => by simp at hx
  | [c1], x, hx, hbig => rfl
  | [c1, c2], x, hx, hbig => rfl
  | [c1, c2, c3], x, hx, hbig => rfl
  | c1 :: c2 :: c3 :: c4 :: rest, x, hx, hbig => by
    rcases List.mem_cons.mp hx with rfl | hx
    · simp [b64DecodeBytes, b64Index_none_of_big x hbig]
    rcases List.mem_cons.mp hx with rfl | hx
    · cases h1 : b64Index c1 with
      | none => simp [b64DecodeBytes, h1]
      | some i1 => simp [b64DecodeBytes, h1, b64Index_none_of_big x hbig]
    rcases List.mem_cons.mp hx with rfl | hx
    · have hpad : x ≠ B64_PAD := by unfold B64_PAD; omega
      cases h1 : b64Index c1 with
      | none => simp [b64DecodeBytes, h1]
      | some i1 =>
        cases h2 : b64Index c2 with
        | none => simp [b64DecodeBytes, h1, h2]
        | some i2 =>
          have h3 : b64Index x = none := b64Index_none_of_big x hbig
          by_cases hp2 : c4 = B64_PAD ∧ rest = []
          · simp [b64DecodeBytes, h1, h2, h3, hpad, hp2]
          · simp [b64DecodeBytes, h1, h2, h3, hpad, hp2]
    rcases List.mem_cons.mp hx with rfl | hx
    · have hpad : x ≠ B64_PAD := by unfold B64_PAD; omega
      cases h1 : b64Index c1 with
      | none => simp [b64DecodeBytes, h1]
      | some i1 =>
        cases h2 : b64Index c2 with
        | none => simp [b64DecodeBytes, h1, h2]
        | some i2 =>
          have h4 : b64Index x = none := b64Index_none_of_big x hbig
          cases h3 : b64Index c3 with
          | none => simp [b64DecodeBytes, h1, h2, h3, h4, hpad]
          | some i3 => simp [b64DecodeBytes, h1, h2, h3, h4, hpad]
    · have hrne : rest ≠ [] := by intro h0; subst h0; simp at hx
      have hr : b64DecodeBytes rest = none := b64Decode_none_of_big rest x hx hbig
      cases h1 : b64Index c1 with
      | none => simp [b64DecodeBytes, h1]
      | some i1 =>
        cases h2 : b64Index c2 with
        | none => simp [b64DecodeBytes, h1, h2]
        | some i2 =>
          cases h3 : b64Index c3 with
          | none => simp [b64DecodeBytes, h1, h2, h3, hrne]
          | some i3 =>
            cases h4 : b64Index c4 with
            | none => simp [b64DecodeBytes, h1, h2, h3, h4, hrne]
            | some i4 => simp [b64DecodeBytes, h1, h2, h3, h4, hr, hrne]

/-- C4: DataUpdate framing round-trip. Assuming the spec contract of the
missing canonicalizer and the external JSON parser (spec §4.1, §8: parsing
inverts canonical serialization; canonical output is a genuine byte string;
the base64 text length fits in `usize`), `decode_data_update` recovers the
value serialized by `encode_data_update`. -/
theorem C4_roundtrip {V : Type} (canonical : V → Except SdkError (List Nat))
    (parse : List Nat → Option V) (v : V) (bs enc : List Nat)
    (hc : canonical v = .ok bs)
    (hbytes : ∀ x ∈ bs, x < 256)
    (hparse : parse bs = some v)
    (hlen : (b64EncodeBytes bs).length < 2 ^ 64)
    (henc : encode_data_update canonical v = .ok enc) :
    decode_data_update parse enc = .ok v := by
  have henc2 : enc = CONSTELLATION_PREFIX_BYTES ++
      (natDigitBytes (b64EncodeBytes bs).length ++ 10 :: b64EncodeBytes bs) := by
    simp only [encode_data_update, to_bytes, hc, if_pos, Except.ok.injEq] at henc
    rw [← henc, List.append_assoc]
  subst henc2
  have hall : ∀ x ∈ CONSTELLATION_PREFIX_BYTES ++
      (natDigitBytes (b64EncodeBytes bs).length ++ 10 :: b64EncodeBytes bs), x < 128 := by
    intro x hx
    rcases List.mem_append.mp hx with hx | hx
    · exact constellation_lt128 x hx
    · rcases List.mem_append.mp hx with hx | hx
      · have := natDigitBytes_bounds _ x hx; omega
      · rcases List.mem_cons.mp hx with rfl | hx
        · norm_num
        · exact b64Encode_lt128 bs x hx
  have hu := utf8Valid_ascii _ hall
  have hsw := startsWithBytes_append CONSTELLATION_PREFIX_BYTES
    (natDigitBytes (b64EncodeBytes bs).length ++ 10 :: b64EncodeBytes bs)
  have hdrop := List.drop_left CONSTELLATION_PREFIX_BYTES
    (natDigitBytes (b64EncodeBytes bs).length ++ 10 :: b64EncodeBytes bs)
  have hnd10 : (10 : Nat) ∉ natDigitBytes (b64EncodeBytes bs).length := by
    intro hmem
    have := natDigitBytes_bounds _ 10 hmem
    omega
  have hsplit := splitn2_append 10 (natDigitBytes (b64EncodeBytes bs).length)
    (b64EncodeBytes bs) hnd10
  have hpn := parseNat_natDigitBytes _ hlen
  have hdec := b64_roundtrip bs hbytes
  simp [decode_data_update, hu, hsw, hdrop, hsplit, hpn, hdec, hparse]

theorem C4_roundtrip_witness :
    decode_data_update
      (fun b => if b = [1, 2, 3] then some () else none)
      [25, 67, 111, 110, 115, 116, 101, 108, 108, 97, 116, 105, 111, 110, 32,
       83, 105, 103, 110, 101, 100, 32, 68, 97, 116, 97, 58, 10,
       52, 10, 65, 81, 73, 68] = .ok () :=
  C4_roundtrip (fun _ : Unit => (.ok [1, 2, 3] : Except SdkError (List Nat)))
    (fun b => if b = [1, 2, 3] then some () else none) () [1, 2, 3] _
    rfl (by decide) (by decide) (by decide) rfl

/-- C8: `decode_data_update` fails exactly when, at the byte level, the
Constellation prefix is absent, no newline follows the prefix, the length
field does not parse as an unsigned integer, the base64 body does not
decode, or the decoded bytes do not parse; and the parsed length value is
never compared with the body, so a frame whose length field is any number
at all still decodes successfully. -/
theorem C8_decode_failure_conditions {V : Type} (parse : List Nat → Option V)
    (data : List Nat) :
    ((∃ e, decode_data_update parse data = .error e) ↔
      ((¬ ∃ t, data = CONSTELLATION_PREFIX_BYTES ++ t) ∨
       (∃ t, data = CONSTELLATION_PREFIX_BYTES ++ t ∧ 10 ∉ t) ∨
       (∃ lf body, data = CONSTELLATION_PREFIX_BYTES ++ (lf ++ 10 :: body) ∧ 10 ∉ lf ∧
         parseNatBytes lf = none) ∨
       (∃ lf body, data = CONSTELLATION_PREFIX_BYTES ++ (lf ++ 10 :: body) ∧ 10 ∉ lf ∧
         b64DecodeBytes body = none) ∨
       (∃ lf body dec, data = CONSTELLATION_PREFIX_BYTES ++ (lf ++ 10 :: body) ∧ 10 ∉ lf ∧
         b64DecodeBytes body = some dec ∧ parse dec = none))) ∧
    (∀ (n : Nat) (body dec : List Nat) (v : V), n < 2 ^ 64 →
      b64DecodeBytes body = some dec → parse dec = some v →
      decode_data_update parse
        (CONSTELLATION_PREFIX_BYTES ++ (natDigitBytes n ++ 10 :: body)) = .ok v) := by
  constructor
  · constructor
    · rintro ⟨e, he⟩
      by_cases hu : utf8Valid data = true
      · by_cases hpre : startsWithBytes CONSTELLATION_PREFIX_BYTES data = true
        · obtain ⟨t, rfl⟩ := (startsWithBytes_iff _ _).mp hpre
          have hdrop := List.drop_left CONSTELLATION_PREFIX_BYTES t
          cases hsplit : splitn2 t 10 with
          | none =>
            exact Or.inr (Or.inl ⟨t, rfl, (splitn2_none_iff 10 t).mp hsplit⟩)
          | some p =>
            obtain ⟨lf, body⟩ := p
            obtain ⟨hteq, hnl⟩ := splitn2_some 10 t lf body hsplit
            subst hteq
            cases hpn : parseNatBytes lf with
            | none => exact Or.inr (Or.inr (Or.inl ⟨lf, body, rfl, hnl, hpn⟩))
            | some k =>
              cases hb64 : b64DecodeBytes body with
              | none => exact Or.inr (Or.inr (Or.inr (Or.inl ⟨lf, body, rfl, hnl, hb64⟩)))
              | some dec =>
                cases hp : parse dec with
                | none =>
                  exact Or.inr (Or.inr (Or.inr (Or.inr ⟨lf, body, dec, rfl, hnl, hb64, hp⟩)))
                | some w =>
                  exfalso
                  simp [decode_data_update, hu, hpre, hdrop, hsplit, hpn, hb64, hp] at he
        · refine Or.inl ?_
          rintro ⟨t, ht⟩
          exact hpre ((startsWithBytes_iff _ _).mpr ⟨t, ht⟩)
      · have hu' : utf8Valid data = false := by
          cases hval : utf8Valid data
          · rfl
          · exact absurd hval hu
        have hex : ∃ x ∈ data, 128 ≤ x := by
          by_contra hno
          push_neg at hno
          rw [utf8Valid_ascii data (fun x hx => by have := hno x hx; omega)] at hu'
          simp at hu'
        by_cases hpre : ∃ t, data = CONSTELLATION_PREFIX_BYTES ++ t
        · obtain ⟨t, rfl⟩ := hpre
          by_cases hsep : (10 : Nat) ∈ t
          · obtain ⟨lf, body, hteq, hnl⟩ := mem_first_split 10 t hsep
            subst hteq
            obtain ⟨x, hxmem, hxbig⟩ := hex
            rcases List.mem_append.mp hxmem with hx | hx
            · have := constellation_lt128 x hx; omega
            · rcases List.mem_append.mp hx with hx | hx
              · exact Or.inr (Or.inr (Or.inl ⟨lf, body, rfl, hnl,
                  parseNatBytes_none_of_big lf x hx hxbig⟩))
              · rcases List.mem_cons.mp hx with h10 | hx
                · omega
                · exact Or.inr (Or.inr (Or.inr (Or.inl ⟨lf, body, rfl, hnl,
                    b64Decode_none_of_big body x hx hxbig⟩)))
          · exact Or.inr (Or.inl ⟨t, rfl, hsep⟩)
        · exact Or.inl hpre
    · intro hcond
      by_cases hu : utf8Valid data = false
      · exact ⟨.serializationError, by simp [decode_data_update, hu]⟩
      · have hu' : utf8Valid data = true := by
          cases hval : utf8Valid data
          · exact absurd hval hu
          · rfl
        rcases hcond with h | h | h | h | h
        · have hsw : startsWithBytes CONSTELLATION_PREFIX_BYTES data = false := by
            cases hval : startsWithBytes CONSTELLATION_PREFIX_BYTES data
            · rfl
            · exact absurd ((startsWithBytes_iff _ _).mp hval) h
          exact ⟨.serializationError, by simp [decode_data_update, hu', hsw]⟩
        · obtain ⟨t, rfl, hsep⟩ := h
          have hsw := startsWithBytes_append CONSTELLATION_PREFIX_BYTES t
          have hdrop := List.drop_left CONSTELLATION_PREFIX_BYTES t
          have hsplit := (splitn2_none_iff 10 t).mpr hsep
          exact ⟨.serializationError,
            by simp [decode_data_update, hu', hsw, hdrop, hsplit]⟩
        · obtain ⟨lf, body, rfl, hnl, hpn⟩ := h
          have hsw := startsWithBytes_append CONSTELLATION_PREFIX_BYTES (lf ++ 10 :: body)
          have hdrop := List.drop_left CONSTELLATION_PREFIX_BYTES (lf ++ 10 :: body)
          have hsplit := splitn2_append 10 lf body hnl
          exact ⟨.serializationError,
            by simp [decode_data_update, hu', hsw, hdrop, hsplit, hpn]⟩
        · obtain ⟨lf, body, rfl, hnl, hb64⟩ := h
          have hsw := startsWithBytes_append CONSTELLATION_PREFIX_BYTES (lf ++ 10 :: body)
          have hdrop := List.drop_left CONSTELLATION_PREFIX_BYTES (lf ++ 10 :: body)
          have hsplit := splitn2_append 10 lf body hnl
          cases hpn : parseNatBytes lf with
          | none => exact ⟨.serializationError,
              by simp [decode_data_update, hu', hsw, hdrop, hsplit, hpn]⟩
          | some k => exact ⟨.serializationError,
              by simp [decode_data_update, hu', hsw, hdrop, hsplit, hpn, hb64]⟩
        · obtain ⟨lf, body, dec, rfl, hnl, hb64, hp⟩ := h
          have hsw := startsWithBytes_append CONSTELLATION_PREFIX_BYTES (lf ++ 10 :: body)
          have hdrop := List.drop_left CONSTELLATION_PREFIX_BYTES (lf ++ 10 :: body)
          have hsplit := splitn2_append 10 lf body hnl
          cases hpn : parseNatBytes lf with
          | none => exact ⟨.serializationError,
              by simp [decode_data_update, hu', hsw, hdrop, hsplit, hpn]⟩
          | some k => exact ⟨.serializationError,
              by simp [decode_data_update, hu', hsw, hdrop, hsplit, hpn, hb64, hp]⟩
  · intro n body dec v hn hb64 hp
    have hall : ∀ x ∈ CONSTELLATION_PREFIX_BYTES ++
        (natDigitBytes n ++ 10 :: body), x < 128 := by
      intro x hx
      rcases List.mem_append.mp hx with hx | hx
      · exact constellation_lt128 x hx
      · rcases List.mem_append.mp hx with hx | hx
        · have := natDigitBytes_bounds n x hx; omega
        · rcases List.mem_cons.mp hx with rfl | hx
          · norm_num
          · exact b64Decode_lt128 body dec hb64 x hx
    have hu := utf8Valid_ascii _ hall
    have hsw := startsWithBytes_append CONSTELLATION_PREFIX_BYTES
      (natDigitBytes n ++ 10 :: body)
    have hdrop := List.drop_left CONSTELLATION_PREFIX_BYTES
      (natDigitBytes n ++ 10 :: body)
    have hnd10 : (10 : Nat) ∉ natDigitBytes n := by
      intro hmem
      have := natDigitBytes_bounds n 10 hmem
      omega
    have hsplit := splitn2_append 10 (natDigitBytes n) body hnd10
    have hpn := parseNat_natDigitBytes n hn
    simp [decode_data_update, hu, hsw, hdrop, hsplit, hpn, hb64, hp]

theorem C8_decode_failure_conditions_witness :
    decode_data_update (fun b : List Nat => if b = [] then some 0 else none)
      (CONSTELLATION_PREFIX_BYTES ++ (natDigitBytes 999 ++ 10 :: [])) = .ok 0 :=
  (C8_decode_failure_conditions (fun b : List Nat => if b = [] then some 0 else none)
      []).2 999 [] [] 0 (by decide) rfl (by decide)

end Metakit
